import Mathlib

set_option linter.unusedVariables false
set_option maxRecDepth 100000

/-! Formal model of the claude_code_bridge reply readers and terminal
backends.

The Python sources `lib/codex_comm.py`, `lib/gemini_comm.py` and
`lib/terminal.py` are shallowly embedded: transcript file contents are
lists of characters, `json.loads` is an executable JSON parser over the
value grammar the transcripts use, and the polling loops are modelled as
pure functions over explicit cursor state.  Wall-clock time, where a
claim needs it, is a rational counter advanced only by `time.sleep`. -/

/-- Whitespace characters removed by Python `str.strip()`. -/
def isPyWs (c : Char) : Bool :=
  c = ' ' || c = '\t' || c = '\n' || c = '\r' || c = '\x0b' || c = '\x0c'

/-- Python `str.strip()` on a character list. -/
def stripWs (l : List Char) : List Char :=
  ((l.dropWhile isPyWs).reverse.dropWhile isPyWs).reverse

/-- Python `str.strip()` on a `String`. -/
def pyStrip (s : String) : String := ⟨stripWs s.data⟩

/-- JSON values as produced by `json.loads`.  Numbers are integers: the
transcript records contain no fractional numbers. -/
inductive Json where
  | null
  | bool (b : Bool)
  | num (n : Int)
  | str (s : String)
  | arr (elems : List Json)
  | obj (members : List (String × Json))

/-- Python `dict.get(key)`: `none` both when the key is absent and when
the receiver is not an object. -/
def jGet : Json → String → Option Json
  | .obj kvs, k => (kvs.find? (fun p => p.1 = k)).map (fun p => p.2)
  | _, _ => none

/-- Python `==` between an optional looked-up JSON value and a string. -/
def isStrVal (v : Option Json) (t : String) : Bool :=
  match v with
  | some (.str s) => s = t
  | _ => false

/-- JSON whitespace accepted by `json.loads`. -/
def isJsonWs (c : Char) : Bool :=
  c = ' ' || c = '\t' || c = '\n' || c = '\r'

/-- Drop leading JSON whitespace. -/
def skipWsJ : List Char → List Char
  | [] => []
  | c :: cs => if isJsonWs c then skipWsJ cs else c :: cs

/-- Escape characters accepted inside JSON string literals (the `\u`
form does not occur in the records considered). -/
def escChar : Char → Option Char
  | '\"' => some '\"'
  | '\\' => some '\\'
  | '/' => some '/'
  | 'n' => some '\n'
  | 't' => some '\t'
  | 'r' => some '\r'
  | 'b' => some '\x08'
  | 'f' => some '\x0c'
  | _ => none

/-- Body of a JSON string literal, after the opening quote. -/
def parseStrBody : List Char → Option (List Char × List Char)
  | [] => none
  | '\"' :: rest => some ([], rest)
  | '\\' :: e :: rest =>
    match escChar e with
    | some c => (parseStrBody rest).map (fun p => (c :: p.1, p.2))
    | none => none
  | c :: rest => (parseStrBody rest).map (fun p => (c :: p.1, p.2))

/-- Digit run to a natural number. -/
def natOfDigits (ds : List Char) : Nat :=
  ds.foldl (fun n c => 10 * n + (c.toNat - 48)) 0

/-- JSON number: the integer subset used by the transcript records. -/
def parseNum (s : List Char) : Option (Json × List Char) :=
  let p : Bool × List Char :=
    match s with
    | '-' :: r => (true, r)
    | _ => (false, s)
  let ds := p.2.takeWhile (fun c => c.isDigit)
  let rest := p.2.dropWhile (fun c => c.isDigit)
  if ds.isEmpty then none
  else
    let n : Int := Int.ofNat (natOfDigits ds)
    some (.num (if p.1 then -n else n), rest)

/-- Python dict construction from parsed members: a duplicate key keeps
its first position and takes the last value. -/
def insKV (kvs : List (String × Json)) (k : String) (v : Json) :
    List (String × Json) :=
  if kvs.any (fun p => p.1 = k) then
    kvs.map (fun p => if p.1 = k then (k, v) else p)
  else kvs ++ [(k, v)]

/-- Normalize a member list to Python dict semantics. -/
def dictify (kvs : List (String × Json)) : List (String × Json) :=
  kvs.foldl (fun acc p => insKV acc p.1 p.2) []

mutual

/-- JSON value parser (the part of `json.loads` exercised by the
transcripts), fuelled by the input length. -/
def parseVal : Nat → List Char → Option (Json × List Char)
  | 0, _ => none
  | fuel + 1, s =>
    match skipWsJ s with
    | 'n' :: 'u' :: 'l' :: 'l' :: r => some (.null, r)
    | 't' :: 'r' :: 'u' :: 'e' :: r => some (.bool true, r)
    | 'f' :: 'a' :: 'l' :: 's' :: 'e' :: r => some (.bool false, r)
    | '\"' :: r => (parseStrBody r).map (fun p => (.str ⟨p.1⟩, p.2))
    | '\x7b' :: r =>
      match skipWsJ r with
      | '\x7d' :: r2 => some (.obj [], r2)
      | r2 => (parseMembers fuel r2).map (fun p => (.obj (dictify p.1), p.2))
    | '[' :: r =>
      match skipWsJ r with
      | ']' :: r2 => some (.arr [], r2)
      | r2 => (parseItems fuel r2).map (fun p => (.arr p.1, p.2))
    | r => parseNum r

/-- Comma-separated array elements, up to the closing bracket. -/
def parseItems : Nat → List Char → Option (List Json × List Char)
  | 0, _ => none
  | fuel + 1, s =>
    match parseVal fuel s with
    | none => none
    | some (v, r) =>
      match skipWsJ r with
      | ',' :: r2 =>
        match parseItems fuel r2 with
        | some (vs, r3) => some (v :: vs, r3)
        | none => none
      | ']' :: r2 => some ([v], r2)
      | _ => none

/-- Comma-separated object members, up to the closing brace. -/
def parseMembers : Nat → List Char → Option (List (String × Json) × List Char)
  | 0, _ => none
  | fuel + 1, s =>
    match skipWsJ s with
    | '\"' :: r =>
      match parseStrBody r with
      | none => none
      | some (kcs, r1) =>
        match skipWsJ r1 with
        | ':' :: r2 =>
          match parseVal fuel r2 with
          | none => none
          | some (v, r3) =>
            match skipWsJ r3 with
            | ',' :: r4 =>
              match parseMembers fuel r4 with
              | some (kvs, r5) => some ((⟨kcs⟩, v) :: kvs, r5)
              | none => none
            | '\x7d' :: r4 => some ([(⟨kcs⟩, v)], r4)
            | _ => none
        | _ => none
    | _ => none

end

/-- Python `json.loads`: parse a complete JSON document, allowing only
trailing whitespace; `none` is a `JSONDecodeError`. -/
def parseJson (s : List Char) : Option Json :=
  match parseVal (s.length + 1) s with
  | some (v, r) => if (skipWsJ r).isEmpty then some v else none
  | none => none

namespace Codex

/-- Item filter inside `CodexLogReader._extract_message`:
`item.get("type") == "output_text"`. -/
def isOutputText (item : Json) : Bool :=
  isStrVal (jGet item "type") "output_text"

/-- Python `entry.get("payload", {})`. -/
def payloadOf (entry : Json) : Json :=
  (jGet entry "payload").getD (Json.obj [])

/-- Python `payload.get("content") or []` followed by iteration: only an
actual JSON array yields items. -/
def contentFragments (payload : Json) : List Json :=
  match jGet payload "content" with
  | some (.arr xs) => xs
  | _ => []

/-- Text of an output fragment as the reply-producing paths see it:
`item.get("text", "")` with every value the join would drop or reject
collapsed to the empty string.  This is a simplification valid only on
the non-raising domain of the source; `extract_message_exn` below keeps
the exception (a truthy non-string text makes the source's
`"\n".join` raise `TypeError`), and `extract_message_exn_agrees` shows
the two models coincide wherever the source returns. -/
def fragText (item : Json) : String :=
  match jGet item "text" with
  | some (.str s) => s
  | _ => ""

/-- Translation of `CodexLogReader._extract_message` restricted to its
non-raising domain: non-dict entries, payloads or content items, and
truthy non-string texts — on which the source raises an uncaught
`AttributeError`/`TypeError` — are collapsed to skips here.  The
exception-faithful version is `extract_message_exn`; the two agree on
every input the source processes without raising
(`extract_message_exn_agrees`). -/
def extract_message (entry : Json) : Option String :=
  if isStrVal (jGet entry "type") "response_item" = false then none
  else
    let payload := payloadOf entry
    if isStrVal (jGet payload "type") "message" = false then none
    else
      let content := contentFragments payload
      let texts := (content.filter isOutputText).map fragText
      if texts.isEmpty = false then
        some (pyStrip (String.intercalate "\n" (texts.filter (fun t => t ≠ ""))))
      else
        match jGet payload "message" with
        | some (.str m) => if pyStrip m ≠ "" then some (pyStrip m) else none
        | _ => none

/-- Python truthiness of a JSON value (`if texts:`, `or []`,
`filter(None, ...)`). -/
def truthy : Json → Bool
  | .null => false
  | .bool b => b
  | .num n => decide (n ≠ 0)
  | .str s => decide (s ≠ "")
  | .arr xs => !xs.isEmpty
  | .obj kvs => !kvs.isEmpty

/-- Uncaught Python exceptions that `_extract_message` can raise; the
enclosing `_read_since` catches only `json.JSONDecodeError`
(codex_comm.py lines 227-230), so these propagate out of the poll. -/
inductive PyExn where
  | attributeError
  | typeError
deriving DecidableEq

/-- Python `value.get(key)`: raises `AttributeError` unless the
receiver is a dict. -/
def pyGet (j : Json) (k : String) : Except PyExn (Option Json) :=
  match j with
  | .obj _ => .ok (jGet j k)
  | _ => .error .attributeError

/-- Resolution of `payload.get("content") or []` followed by the start
of the comprehension's iteration: a falsy value becomes the empty list;
a JSON array is iterated; a truthy string or dict iterates to strings
whose `get` raises `AttributeError`; any other truthy value is not
iterable and raises `TypeError`. -/
def contentItems (contentJ : Json) : Except PyExn (List Json) :=
  if truthy contentJ then
    match contentJ with
    | .arr xs => .ok xs
    | .str _ => .error .attributeError
    | .obj _ => .error .attributeError
    | _ => .error .typeError
  else .ok []

/-- The comprehension of `_extract_message`: visit every content item,
raising `AttributeError` at the first non-dict item, and collect
`item.get("text", "")` of the items whose type tag is
`output_text`. -/
def collectTexts : List Json → Except PyExn (List Json)
  | [] => .ok []
  | item :: rest =>
    match item with
    | .obj _ =>
      match collectTexts rest with
      | .ok ts =>
        .ok (if isOutputText item then
              ((jGet item "text").getD (Json.str "")) :: ts
            else ts)
      | .error e => .error e
    | _ => .error .attributeError

/-- Python `"\n".join(filter(None, texts))`: drop falsy values, raise
`TypeError` at a truthy non-string, and keep the strings to be
joined. -/
def joinTruthyTexts : List Json → Except PyExn (List String)
  | [] => .ok []
  | t :: rest =>
    if truthy t then
      match t with
      | .str s =>
        match joinTruthyTexts rest with
        | .ok ss => .ok (s :: ss)
        | .error e => .error e
      | _ => .error .typeError
    else joinTruthyTexts rest

/-- Exception-faithful translation of `CodexLogReader._extract_message`
(codex_comm.py lines 258-274): `error` exactly where the Python
function raises, `ok` with the returned optional reply otherwise. -/
def extract_message_exn (entry : Json) : Except PyExn (Option String) :=
  match pyGet entry "type" with
  | .error e => .error e
  | .ok tyv =>
    if isStrVal tyv "response_item" = false then .ok none
    else
      match pyGet entry "payload" with
      | .error e => .error e
      | .ok pv =>
        let payload := pv.getD (Json.obj [])
        match pyGet payload "type" with
        | .error e => .error e
        | .ok ptyv =>
          if isStrVal ptyv "message" = false then .ok none
          else
            match pyGet payload "content" with
            | .error e => .error e
            | .ok cv =>
              match contentItems (cv.getD Json.null) with
              | .error e => .error e
              | .ok content =>
                match collectTexts content with
                | .error e => .error e
                | .ok texts =>
                  if texts.isEmpty = false then
                    match joinTruthyTexts texts with
                    | .error e => .error e
                    | .ok kept =>
                      .ok (some (pyStrip (String.intercalate "\n" kept)))
                  else
                    match pyGet payload "message" with
                    | .error e => .error e
                    | .ok mv =>
                      match mv with
                      | some (Json.str m) =>
                        if pyStrip m ≠ "" then .ok (some (pyStrip m))
                        else .ok none
                      | _ => .ok none

/-- Processing of one complete transcript line inside
`CodexLogReader._read_since` (lines 224-233 of `codex_comm.py`): decode
and strip the raw line; a blank line, a `json.loads` failure, or a
record from which `_extract_message` gets no message all mean "continue
with the next line" and are uniformly `none` here. -/
def lineMessage (rawLine : List Char) : Option String :=
  let line := stripWs rawLine
  if line.isEmpty then none
  else
    match parseJson line with
    | none => none
    | some entry => extract_message entry

/-- Inner read loop of `CodexLogReader._read_since` (lines 212-233),
folded over the bytes after the cursor.  `acc` holds the (reversed)
bytes of the line currently being read.  Reaching end of file with a
line still open models `raw_line` lacking the trailing `\n`: the reader
seeks back to the line start and stops, so those bytes are not counted.
The returned number is the count of consumed bytes (whole lines only);
the optional string is the first extracted message, if any. -/
def readLoopAcc (acc : List Char) : List Char → Option String × Nat
  | [] => (none, 0)
  | c :: cs =>
    if c = '\n' then
      match lineMessage (acc.reverse ++ ['\n']) with
      | some m => (some m, acc.length + 1)
      | none =>
        let r := readLoopAcc [] cs
        (r.1, acc.length + 1 + r.2)
    else readLoopAcc (c :: acc) cs

/-- Seek-and-read of `CodexLogReader._read_since`, lines 200-233: clamp
the offset to the file size (line 202-203), seek, and run the read loop.
Returns the first extracted message after the cursor, and the cursor
position after the last consumed line. -/
def read_since (content : List Char) (offset : Nat) : Option String × Nat :=
  let o := min offset content.length
  let r := readLoopAcc [] (content.drop o)
  (r.1, o + r.2)

/-- Offset normalization at the top of the read loop: a negative offset
(the capture-state sentinel for "no baseline") becomes end of file
(line 197-198); an offset past the end is clamped to the size
(lines 202-203). -/
def normOffset (size : Nat) (offset : Int) : Nat :=
  if offset < 0 then size else min offset.toNat size

/-- One read pass of `CodexLogReader._read_since` starting from a
possibly-negative stored offset. -/
def pollA (content : List Char) (offset : Int) : Option String × Nat :=
  read_since content (normOffset content.length offset)

/-- Outcome of resolving and reading the current log file in
`CodexLogReader.capture_state` (lines 100-114): the file may be absent,
present but unreadable (both `stat` and the `open`/`seek` fallback
fail), or readable with the given content. -/
inductive CapFile where
  | absent
  | unreadable (content : List Char)
  | readable (content : List Char)

/-- Offset recorded by `CodexLogReader.capture_state`: the byte size of
the resolved file when readable, and the `-1` sentinel otherwise. -/
def capture_offset : CapFile → Int
  | .absent => -1
  | .unreadable _ => -1
  | .readable c => Int.ofNat c.length

/-- Scan of the reversed tail lines in `CodexLogReader.latest_message`
(lines 145-156): skip blank lines, decode failures, and records whose
extracted message is falsy (`None` or the empty string). -/
def latestScan : List (List Char) → Option String
  | [] => none
  | l :: ls =>
    let line := stripWs l
    if line.isEmpty then latestScan ls
    else
      match parseJson line with
      | none => latestScan ls
      | some entry =>
        match extract_message entry with
        | some m => if m ≠ "" then some m else latestScan ls
        | none => latestScan ls

/-- Python `str.splitlines()` restricted to `\n` separators (the only
line break the transcript writer emits): split on newlines, dropping a
final empty segment.  `cur` accumulates the current line reversed. -/
def splitlinesGo (cur : List Char) : List Char → List (List Char)
  | [] => if cur.isEmpty then [] else [cur.reverse]
  | c :: cs =>
    if c = '\n' then cur.reverse :: splitlinesGo [] cs
    else splitlinesGo (c :: cur) cs

/-- Python `str.splitlines()` on the buffered tail window. -/
def splitlines (l : List Char) : List (List Char) :=
  splitlinesGo [] l

/-- Translation of `CodexLogReader.latest_message`.  The source reads a
bounded tail window (at least 50 lines or 256 KiB); the window covers
the whole file for every input considered here, so the model reads the
full content. -/
def latest_message (content : List Char) : Option String :=
  latestScan (splitlines content).reverse

/-- One candidate transcript file on disk: path, modification time,
content. -/
structure FileEntry where
  path : Nat
  mtime : Int
  content : List Char
deriving DecidableEq

/-- Translation of `CodexLogReader._scan_latest` (lines 58-76): a single
max-tracking pass over the candidate files in directory-walk order,
where a tie on modification time keeps the later candidate
(`mtime >= latest_mtime`). -/
def scan_latest (files : List FileEntry) : Option FileEntry :=
  files.foldl
    (fun best f =>
      match best with
      | none => some f
      | some g => if g.mtime ≤ f.mtime then some f else some g)
    none

/-- Mutable locals of one `CodexLogReader._read_since` call together
with the reader's `_preferred_log` field. -/
structure RotState where
  preferred : Option Nat
  currentPath : Option Nat
  offset : Int
deriving DecidableEq

/-- File-existence check: look a path up among the files on disk. -/
def findFile (files : List FileEntry) (p : Nat) : Option FileEntry :=
  files.find? (fun f => f.path = p)

/-- Translation of the `ensure_log` closure (lines 168-180): prefer the
bound log, then the cursor's file, and only then fall back to a
directory scan, rebinding `_preferred_log` on that fallback. -/
def ensureLog (files : List FileEntry) (st : RotState) :
    Option (FileEntry × RotState) :=
  match st.preferred.bind (findFile files) with
  | some f => some (f, st)
  | none =>
    match st.currentPath.bind (findFile files) with
    | some f => some (f, st)
    | none =>
      match scan_latest files with
      | some f => some (f, { st with preferred := some f.path })
      | none => none

/-- Outcome of one iteration of the blocking wait loop. -/
inductive StepOut where
  | reply (msg : String) (st : RotState)
  | wait (st : RotState)
  | noLog (st : RotState)
deriving DecidableEq

/-- One iteration of the blocking wait loop of
`CodexLogReader._read_since` (lines 182-256), with wall-clock time
abstracted away: `doRescan` tells whether the rescan interval has
elapsed (line 235), and deadline expiry is modelled separately.  The
iteration resolves the log, seeks and reads from the stored offset,
returns the first extracted message if any, otherwise optionally
rescans: a scan hit on a different file switches to it and resets the
offset to 0 (lines 236-248), then the loop sleeps and retries. -/
def pollStepB (files : List FileEntry) (doRescan : Bool) (st : RotState) :
    StepOut :=
  match ensureLog files st with
  | none => .noLog st
  | some (f, st1) =>
    let off := normOffset f.content.length st1.offset
    let r := read_since f.content off
    match r.1 with
    | some m =>
      .reply m { st1 with currentPath := some f.path, offset := Int.ofNat r.2 }
    | none =>
      if doRescan then
        match scan_latest files with
        | some latest =>
          if latest.path ≠ f.path then
            .wait
              { preferred := some latest.path
                currentPath := some latest.path
                offset := 0 }
          else .wait { st1 with currentPath := some f.path, offset := Int.ofNat r.2 }
        | none => .wait { st1 with currentPath := some f.path, offset := Int.ofNat r.2 }
      else .wait { st1 with currentPath := some f.path, offset := Int.ofNat r.2 }

/-- Returned offsets of successive `_read_since` calls against a
transcript that only grows: after each poll the file is extended by the
next chunk and polled again from the offset the previous call
returned. -/
def pollOffsetsAux : List Char → Nat → List (List Char) → List Nat
  | _, _, [] => []
  | c, o, e :: es =>
    let c2 := c ++ e
    let o2 := (read_since c2 o).2
    o2 :: pollOffsetsAux c2 o2 es

/-- Offsets returned by a first poll from an arbitrary stored offset
followed by one poll per growth step. -/
def pollOffsets (c : List Char) (o : Int) (exts : List (List Char)) :
    List Nat :=
  let o1 := (pollA c o).2
  o1 :: pollOffsetsAux c o1 exts

/-- Timed model of the blocking wait loop of
`CodexLogReader._read_since` against a fixed transcript: reads take no
time, `time.sleep(poll)` advances the clock by `poll`, and the deadline
is re-checked at the top of the read loop (line 213) and right after
every sleep (lines 255-256).  The scenario has no rotation, so the
rescan branch never changes the file.  The result carries the returned
message, the returned offset, and the elapsed time; `none` means the
fuel ran out before the loop returned. -/
def waitGoA (content : List Char) (offset : Nat) (poll deadline t : ℚ) :
    Nat → Option (Option String × Nat × ℚ)
  | 0 => none
  | fuel + 1 =>
    if deadline ≤ t then some (none, offset, t)
    else
      let r := read_since content offset
      match r.1 with
      | some m => some (some m, r.2, t)
      | none =>
        if deadline ≤ t + poll then some (none, r.2, t + poll)
        else waitGoA content r.2 poll deadline (t + poll) fuel

end Codex

namespace Gemini

/-- One entry of the whole-document transcript's `messages` list. -/
structure GMsg where
  id : Option String
  type : String
  content : String
deriving DecidableEq

/-- Cursor state threaded through `GeminiLogReader._read_since`: the
`prev_*` locals seeded from the captured state.  The SHA-256 content
fingerprint is modelled as the content itself (an injective
fingerprint). -/
structure GState where
  msg_count : Int
  mtime_ns : Int
  size : Nat
  last_id : Option String
  last_hash : Option String
deriving DecidableEq

/-- Translation of `GeminiLogReader._extract_last_gemini`: the last
message of type `gemini`, with stripped content. -/
def extract_last_gemini (msgs : List GMsg) : Option (Option String × String) :=
  (msgs.reverse.find? (fun m => m.type = "gemini")).map
    (fun m => (m.id, pyStrip m.content))

/-- Translation of `GeminiLogReader.capture_state` (lines 133-184) for a
session file that parses: record message count, stat fields, and the id
and content fingerprint of the last gemini message (the fingerprint is
taken even of empty content). -/
def capture_state (msgs : List GMsg) (mtimeNs : Int) (size : Nat) : GState :=
  let base : GState :=
    { msg_count := Int.ofNat msgs.length
      mtime_ns := mtimeNs
      size := size
      last_id := none
      last_hash := none }
  match extract_last_gemini msgs with
  | some (i, c) => { base with last_id := i, last_hash := some c }
  | none => base

/-- Baseline update on the no-return path of one poll iteration
(lines 397-404): refresh the stat fields and message count, and rebind
the last-gemini id and (for non-empty content) fingerprint. -/
def gFallthrough (st : GState) (msgs : List GMsg) (mtimeNs : Int)
    (size : Nat) : GState :=
  let base : GState :=
    { st with
      msg_count := Int.ofNat msgs.length
      mtime_ns := mtimeNs
      size := size }
  match extract_last_gemini msgs with
  | some (i, c) =>
    { base with
      last_id := i
      last_hash := if c ≠ "" then some c else st.last_hash }
  | none => base

/-- One non-blocking iteration of `GeminiLogReader._read_since`
(lines 258-418) for a session file that parses, given the file's
current messages and stat.  Covers the unknown-baseline branch
(lines 287-348), the count-growth branch (lines 350-377), the in-place
edit branch (lines 378-395), and the fallthrough baseline update with
the non-blocking return (lines 397-418). -/
def read_since_nb (st : GState) (msgs : List GMsg) (mtimeNs : Int)
    (size : Nat) : Option String × GState :=
  let currentCount : Int := Int.ofNat msgs.length
  if st.msg_count < 0 then
    let fast : Option (Option String × String) :=
      match msgs.getLast? with
      | some m =>
        if m.type = "gemini" ∧ pyStrip m.content ≠ "" ∧
            (st.mtime_ns < mtimeNs ∨ size ≠ st.size) then
          some (m.id, pyStrip m.content)
        else none
      | none => none
    match fast with
    | some (i, c) =>
      (some c,
        { msg_count := currentCount
          mtime_ns := mtimeNs
          size := size
          last_id := i
          last_hash := some c })
    | none =>
      let st2 : GState :=
        match extract_last_gemini msgs with
        | some (i, c) =>
          { msg_count := currentCount
            mtime_ns := mtimeNs
            size := size
            last_id := i
            last_hash := if c ≠ "" then some c else none }
        | none =>
          { msg_count := currentCount
            mtime_ns := mtimeNs
            size := size
            last_id := st.last_id
            last_hash := st.last_hash }
      (none, st2)
  else if st.msg_count < currentCount then
    let cands := (msgs.drop st.msg_count.toNat).filterMap (fun m =>
      if m.type = "gemini" then
        let c := pyStrip m.content
        if c ≠ "" ∧ ¬(m.id = st.last_id ∧ some c = st.last_hash) then
          some (m.id, c)
        else none
      else none)
    match cands.getLast? with
    | some (i, c) =>
      (some c,
        { msg_count := currentCount
          mtime_ns := mtimeNs
          size := size
          last_id := i
          last_hash := some c })
    | none => (none, gFallthrough st msgs mtimeNs size)
  else
    match extract_last_gemini msgs with
    | some (i, c) =>
      if c ≠ "" ∧ (i ≠ st.last_id ∨ some c ≠ st.last_hash) then
        (some c,
          { msg_count := currentCount
            mtime_ns := mtimeNs
            size := size
            last_id := i
            last_hash := some c })
      else (none, gFallthrough st msgs mtimeNs size)
    | none => (none, gFallthrough st msgs mtimeNs size)

/-- Messages returned by `n` successive non-blocking polls against an
unchanged session file, threading the evolving state. -/
def pollStream (st : GState) (msgs : List GMsg) (mtimeNs : Int)
    (size : Nat) : Nat → List (Option String)
  | 0 => []
  | n + 1 =>
    let r := read_since_nb st msgs mtimeNs size
    r.1 :: pollStream r.2 msgs mtimeNs size n

end Gemini

namespace Terminal

/-- Result of a `subprocess.run` invocation: the program may be absent
(`FileNotFoundError`) or exit with a code and captured stdout. -/
inductive SpawnResult where
  | progMissing
  | exited (code : Int) (stdout : List Char)

/-- Python exception escaping a backend call. -/
inductive PyErr where
  | fileNotFound
deriving DecidableEq

/-- Translation of `TmuxBackend.is_alive` (lines 157-159): no exception
handling, so an absent `tmux` binary propagates `FileNotFoundError`;
otherwise the result is `returncode == 0`. -/
def tmux_is_alive (session : String) (r : SpawnResult) : Except PyErr Bool :=
  match r with
  | .progMissing => .error .fileNotFound
  | .exited code _ => .ok (code = 0)

/-- Comparison `str(p.get("pane_id")) == str(pane_id)` for the scalar
values that occur in pane listings. -/
def paneIdMatches (v : Option Json) (target : String) : Bool :=
  match v with
  | some (.str s) => s = target
  | some (.num n) => toString n = target
  | _ => false

/-- Translation of `WeztermBackend.is_alive` (lines 323-331): the whole
body is wrapped in `try/except Exception`, so a missing binary, a
non-zero exit, undecodable stdout, or an unexpected JSON shape all
yield `false`. -/
def wezterm_is_alive (paneId : String) (r : SpawnResult) : Bool :=
  match r with
  | .progMissing => false
  | .exited code out =>
    if code ≠ 0 then false
    else
      match parseJson out with
      | some (.arr panes) =>
        panes.any (fun p => paneIdMatches (jGet p "pane_id") paneId)
      | _ => false

/-- Translation of `Iterm2Backend.is_alive` (lines 206-217), likewise
fully guarded; the id comparison has no `str()` coercion. -/
def iterm2_is_alive (sessionId : String) (r : SpawnResult) : Bool :=
  match r with
  | .progMissing => false
  | .exited code out =>
    if code ≠ 0 then false
    else
      match parseJson out with
      | some (.arr sessions) =>
        sessions.any (fun s => isStrVal (jGet s "id") sessionId)
      | _ => false

/-- Delivery path of a `send_text` call: argument/key typing versus the
tmux `load-buffer`/`paste-buffer` bulk-paste path. -/
inductive Delivery where
  | typed (payload : List Char)
  | pasted (payload : List Char)
deriving DecidableEq

/-- Payload a delivery puts into the pane. -/
def payloadD : Delivery → List Char
  | .typed s => s
  | .pasted s => s

/-- Python `text.replace(c, "")`: remove every occurrence of one
character. -/
def removeChar (x : Char) (l : List Char) : List Char :=
  l.filter (fun c => c ≠ x)

/-- Translation of `TmuxBackend.send_text` (lines 135-155): strip
carriage returns and surrounding whitespace; an empty result sends
nothing; short single-line text goes through `send-keys -l`, anything
else through `load-buffer`/`paste-buffer`; both paths end with an Enter
key-press (the boolean). -/
def tmux_send_text (text : List Char) : Option (Delivery × Bool) :=
  let s := stripWs (removeChar '\r' text)
  if s.isEmpty then none
  else if ¬s.contains '\n' ∧ s.length ≤ 200 then some (.typed s, true)
  else some (.pasted s, true)

/-- Translation of `WeztermBackend.send_text` (lines 288-321): strip
carriage returns and also every newline, then send the remainder as one
`send-text --no-paste` call followed by an Enter key-press. -/
def wezterm_send_text (text : List Char) : Option (Delivery × Bool) :=
  let s := stripWs (removeChar '\n' (removeChar '\r' text))
  if s.isEmpty then none
  else some (.typed s, true)

/-- Translation of `Iterm2Backend.send_text` (lines 188-204): strip
carriage returns, send the whole text in one `it2 session send` call,
then send Enter. -/
def iterm2_send_text (text : List Char) : Option (Delivery × Bool) :=
  let s := stripWs (removeChar '\r' text)
  if s.isEmpty then none
  else some (.typed s, true)

/-- Carriage-return-free payload and trailing Enter for a completed
`send_text` call (an empty sanitized text sends nothing). -/
def sendCRFreeEnter (o : Option (Delivery × Bool)) : Bool :=
  match o with
  | none => true
  | some (d, enter) => enter && !(payloadD d).contains '\r'

/-- Multi-line tmux deliveries never use the typing path. -/
def tmuxMultilinePasted (text : List Char) : Bool :=
  match tmux_send_text text with
  | some (Delivery.typed s, _) => !s.contains '\n'
  | _ => true

/-- WezTerm deliveries never contain a newline. -/
def wezFlat (text : List Char) : Bool :=
  match wezterm_send_text text with
  | some (d, _) => !(payloadD d).contains '\n'
  | none => true

/-- Multi-line tmux deliveries carry the sanitized text unchanged
through the bulk-paste path. -/
def tmuxPastePreserves (text : List Char) : Bool :=
  match tmux_send_text text with
  | some (Delivery.pasted s, _) => s = stripWs (removeChar '\r' text)
  | _ => true

/-- iTerm2 deliveries keep the newlines of the sanitized text. -/
def iterm2KeepsNewlines (text : List Char) : Bool :=
  match iterm2_send_text text with
  | some (d, _) =>
    (payloadD d).contains '\n' = (stripWs (removeChar '\r' text)).contains '\n'
  | none => true

end Terminal

namespace Codex

/-- Every line of the content is complete: the content is empty or ends
with the line terminator. -/
def Terminated (l : List Char) : Prop :=
  l = [] ∨ l.getLast? = some '\n'

/-- Modelled from the spec: the recognized record shape of S 6, used to
state the extraction claim.  An entry qualifies when it is a
`response_item` whose payload is a `message` that either has at least
one `output_text` content fragment, or, with no such fragment, carries
a legacy string field `payload.message` that is non-empty after
stripping. -/
def QualifiesSpec (entry : Json) : Prop :=
  isStrVal (jGet entry "type") "response_item" = true ∧
  isStrVal (jGet (payloadOf entry) "type") "message" = true ∧
  ((∃ item ∈ contentFragments (payloadOf entry), isOutputText item = true) ∨
   ((∀ item ∈ contentFragments (payloadOf entry), isOutputText item = false) ∧
    ∃ s, jGet (payloadOf entry) "message" = some (Json.str s) ∧ pyStrip s ≠ ""))

/-- Transcript line of the end-to-end scenario in S 8 of the spec. -/
def hiLine : List Char :=
  ("\x7b\"type\":\"response_item\",\"payload\":\x7b\"type\":\"message\",\"content\":[\x7b\"type\":\"output_text\",\"text\":\"hi\"\x7d]\x7d\x7d").data

/-- Qualifying record whose only output fragment has empty text. -/
def emptyTextLine : List Char :=
  ("\x7b\"type\":\"response_item\",\"payload\":\x7b\"type\":\"message\",\"content\":[\x7b\"type\":\"output_text\",\"text\":\"\"\x7d]\x7d\x7d").data

/-- Decoded entry of the end-to-end line `hiLine`. -/
def hiEntry : Json :=
  Json.obj
    [("type", Json.str "response_item"),
     ("payload", Json.obj
       [("type", Json.str "message"),
        ("content", Json.arr
          [Json.obj [("type", Json.str "output_text"),
                     ("text", Json.str "hi")]])])]

/-- Decoded `response_item`/`message` record that carries an
`output_text` fragment with text `"hi"` but also a bare string in its
content list: `item.get("type")` on that string raises an uncaught
`AttributeError` in the source. -/
def crashEntry : Json :=
  Json.obj
    [("type", Json.str "response_item"),
     ("payload", Json.obj
       [("type", Json.str "message"),
        ("content", Json.arr
          [Json.str "x",
           Json.obj [("type", Json.str "output_text"),
                     ("text", Json.str "hi")]])])]

end Codex

namespace Gemini

/-- Capture-time messages of the in-place edit scenario in S 8 of the
spec. -/
def doc0 : List GMsg := [⟨some "1", "gemini", ""⟩]

/-- Rewritten messages of the in-place edit scenario: same id, same
count, content filled in. -/
def doc1 : List GMsg := [⟨some "1", "gemini", "hello"⟩]

end Gemini

/-! Helper lemmas. -/

/-- Stripping only removes characters. -/
theorem mem_stripWs {a : Char} {l : List Char} (h : a ∈ stripWs l) : a ∈ l := by
  unfold stripWs at h
  rw [List.mem_reverse] at h
  have h1 : a ∈ (l.dropWhile isPyWs).reverse := (List.dropWhile_sublist isPyWs).mem h
  rw [List.mem_reverse] at h1
  exact (List.dropWhile_sublist isPyWs).mem h1

/-- Membership in a character removal. -/
theorem mem_removeChar {a x : Char} {l : List Char} :
    a ∈ Terminal.removeChar x l ↔ a ∈ l ∧ a ≠ x := by
  simp [Terminal.removeChar, List.mem_filter]

/-- A trailing newline does not change the stripped line. -/
theorem stripWs_append_newline (l : List Char) :
    stripWs (l ++ ['\n']) = stripWs l := by
  unfold stripWs
  rw [List.dropWhile_append]
  by_cases h : (l.dropWhile isPyWs).isEmpty
  · rw [if_pos h]
    rw [List.isEmpty_iff] at h
    rw [h]
    simp [List.dropWhile, isPyWs]
  · rw [if_neg h]
    rw [List.reverse_append]
    simp only [List.reverse_cons, List.reverse_nil, List.nil_append, List.singleton_append]
    rw [List.dropWhile_cons]
    simp [isPyWs]

/-- A chunk without a newline never completes a line: the read loop
rewinds to the line start and consumes nothing. -/
theorem readLoopAcc_no_newline (l : List Char) (h : '\n' ∉ l) :
    ∀ acc, Codex.readLoopAcc acc l = (none, 0) := by
  induction l with
  | nil => intro acc; rfl
  | cons c cs ih =>
    intro acc
    have hc : c ≠ '\n' := fun e => h (e ▸ List.mem_cons_self c cs)
    rw [Codex.readLoopAcc, if_neg hc]
    exact ih (fun hm => h (List.mem_cons_of_mem c hm)) _

/-- A suffix of fully terminated content is fully terminated. -/
theorem terminated_drop (l : List Char) (n : Nat) (h : Codex.Terminated l) :
    Codex.Terminated (l.drop n) := by
  rcases h with h | h
  · subst h; simp [Codex.Terminated]
  · by_cases hd : l.drop n = []
    · exact Or.inl hd
    · right
      have hsplit : l = l.take n ++ l.drop n := (List.take_append_drop n l).symm
      rw [hsplit, List.getLast?_append_of_ne_nil _ hd] at h
      exact h

/-- Appending a newline-free chunk after fully terminated content does
not change what the read loop returns: the chunk is part of a line still
being written and is neither parsed nor counted. -/
theorem readLoopAcc_append_frag (rem frag : List Char)
    (hterm : Codex.Terminated rem) (hfrag : '\n' ∉ frag) :
    ∀ acc, Codex.readLoopAcc acc (rem ++ frag) = Codex.readLoopAcc acc rem := by
  induction rem with
  | nil =>
    intro acc
    rw [List.nil_append, readLoopAcc_no_newline frag hfrag acc]
    rfl
  | cons c cs ih =>
    intro acc
    have hterm' : Codex.Terminated cs := by
      rcases hterm with h | h
      · exact absurd h (List.cons_ne_nil c cs)
      · cases cs with
        | nil => exact Or.inl rfl
        | cons d ds => exact Or.inr (by rwa [List.getLast?_cons_cons] at h)
    by_cases hc : c = '\n'
    · subst hc
      rw [List.cons_append, Codex.readLoopAcc, Codex.readLoopAcc, if_pos rfl,
        if_pos rfl]
      cases hlm : Codex.lineMessage (acc.reverse ++ ['\n']) with
      | some m => rfl
      | none => simp only [ih hterm']
    · rw [List.cons_append, Codex.readLoopAcc, Codex.readLoopAcc, if_neg hc,
        if_neg hc]
      exact ih hterm' (c :: acc)

/-- When every line is terminated and no line yields a message, the read
loop consumes everything: nonempty content advances by the full length
plus the already-buffered line prefix. -/
theorem readLoopAcc_none_length (rem : List Char) (hterm : Codex.Terminated rem) :
    ∀ acc, (Codex.readLoopAcc acc rem).1 = none →
      (Codex.readLoopAcc acc rem).2
        = if rem.isEmpty then 0 else acc.length + rem.length := by
  induction rem with
  | nil => intro acc _; rfl
  | cons c cs ih =>
    intro acc hnone
    have hne : (c :: cs).isEmpty = false := rfl
    rw [hne]
    by_cases hc : c = '\n'
    · subst hc
      rw [Codex.readLoopAcc, if_pos rfl] at hnone ⊢
      cases hlm : Codex.lineMessage (acc.reverse ++ ['\n']) with
      | some m => rw [hlm] at hnone; simp at hnone
      | none =>
        rw [hlm] at hnone
        simp only at hnone ⊢
        have hterm' : Codex.Terminated cs := by
          rcases hterm with h | h
          · exact absurd h (List.cons_ne_nil _ _)
          · cases cs with
            | nil => exact Or.inl rfl
            | cons d ds => exact Or.inr (by rwa [List.getLast?_cons_cons] at h)
        have := ih hterm' [] hnone
        cases cs with
        | nil => simp at this ⊢; omega
        | cons d ds =>
          rw [this]
          simp [List.length_cons]
          omega
    · rcases hterm with h | h
      · exact absurd h (List.cons_ne_nil _ _)
      · cases cs with
        | nil =>
          exfalso
          simp [List.getLast?] at h
          exact hc h
        | cons d ds =>
          have hterm' : Codex.Terminated (d :: ds) :=
            Or.inr (by rwa [List.getLast?_cons_cons] at h)
          rw [Codex.readLoopAcc, if_neg hc] at hnone ⊢
          have := ih hterm' (c :: acc) hnone
          rw [this]
          simp [List.length_cons]
          omega

/-- Reading a single complete line: the loop returns that line's
extracted message and advances past its terminator. -/
theorem readLoopAcc_single (frag : List Char) (hfrag : '\n' ∉ frag) :
    ∀ acc, Codex.readLoopAcc acc (frag ++ ['\n'])
      = (Codex.lineMessage (acc.reverse ++ (frag ++ ['\n'])),
         acc.length + frag.length + 1) := by
  induction frag with
  | nil =>
    intro acc
    rw [List.nil_append, Codex.readLoopAcc, if_pos rfl]
    cases hlm : Codex.lineMessage (acc.reverse ++ ['\n']) with
    | some m => simp
    | none => simp [Codex.readLoopAcc]
  | cons c cs ih =>
    intro acc
    have hc : c ≠ '\n' := fun e => hfrag (e ▸ List.mem_cons_self c cs)
    rw [List.cons_append, Codex.readLoopAcc, if_neg hc]
    rw [ih (fun hm => hfrag (List.mem_cons_of_mem c hm)) (c :: acc)]
    simp only [List.reverse_cons, List.append_assoc, List.singleton_append,
      List.length_cons, Prod.mk.injEq, List.cons_append]
    exact ⟨rfl, by omega⟩

/-- The read loop never counts more than the bytes it was given plus the
already-buffered line prefix. -/
theorem readLoopAcc_snd_le (l : List Char) :
    ∀ acc, (Codex.readLoopAcc acc l).2 ≤ acc.length + l.length := by
  induction l with
  | nil => intro acc; simp [Codex.readLoopAcc]
  | cons c cs ih =>
    intro acc
    by_cases hc : c = '\n'
    · subst hc
      rw [Codex.readLoopAcc, if_pos rfl]
      cases hlm : Codex.lineMessage (acc.reverse ++ ['\n']) with
      | some m => simp [List.length_cons]
      | none =>
        have h1 := ih []
        simp only [List.length_nil, Nat.zero_add] at h1
        simp only [List.length_cons]
        omega
    · rw [Codex.readLoopAcc, if_neg hc]
      have h1 := ih (c :: acc)
      simp only [List.length_cons] at h1 ⊢
      omega

/-- A poll never moves the cursor past end of file. -/
theorem read_since_snd_le (c : List Char) (o : Nat) :
    (Codex.read_since c o).2 ≤ c.length := by
  simp only [Codex.read_since]
  have h1 := readLoopAcc_snd_le (c.drop (min o c.length)) []
  simp only [List.length_nil, Nat.zero_add] at h1
  have h2 : (c.drop (min o c.length)).length = c.length - min o c.length :=
    List.length_drop _ _
  omega

/-- A poll from a cursor inside the file never moves the cursor
backwards. -/
theorem read_since_snd_ge (c : List Char) (o : Nat) (h : o ≤ c.length) :
    o ≤ (Codex.read_since c o).2 := by
  simp only [Codex.read_since]
  omega

/-- C1.  Strategy A partial-write safety: polling fully terminated
content `pre` followed by an unterminated final line `frag` neither
parses nor consumes `frag` and leaves the cursor at the start of the
partial line (end of `pre`); once the terminator appears, a poll from
that cursor returns exactly that line's reply. -/
theorem c1_partial_write_safety (pre frag : List Char) (o : Nat) (m : String)
    (hterm : Codex.Terminated pre) (hfrag : '\n' ∉ frag) (ho : o ≤ pre.length)
    (hnone : (Codex.read_since pre o).1 = none)
    (hmsg : Codex.lineMessage (frag ++ ['\n']) = some m) :
    Codex.read_since (pre ++ frag) o = (none, pre.length) ∧
    Codex.read_since (pre ++ frag ++ ['\n']) pre.length
      = (some m, pre.length + frag.length + 1) := by
  have hmin : min o pre.length = o := Nat.min_eq_left ho
  have hnone' : (Codex.readLoopAcc [] (pre.drop o)).1 = none := by
    simp only [Codex.read_since, hmin] at hnone
    exact hnone
  constructor
  · have hmin1 : min o (pre ++ frag).length = o := by
      simp only [List.length_append]; omega
    simp only [Codex.read_since, hmin1,
      List.drop_append_of_le_length ho,
      readLoopAcc_append_frag (pre.drop o) frag (terminated_drop pre o hterm)
        hfrag []]
    have hlen := readLoopAcc_none_length (pre.drop o)
      (terminated_drop pre o hterm) [] hnone'
    rw [hnone', hlen]
    have hdl : (pre.drop o).length = pre.length - o := List.length_drop _ _
    by_cases he : (pre.drop o).isEmpty = true
    · rw [if_pos he, List.isEmpty_iff] at *
      have : (pre.drop o).length = 0 := by rw [he]; rfl
      simp only [Prod.mk.injEq]
      exact ⟨trivial, by omega⟩
    · rw [if_neg he]
      have : (pre.drop o).length ≠ 0 := by
        intro h0
        exact he (List.isEmpty_iff.mpr (List.eq_nil_of_length_eq_zero h0))
      simp only [List.length_nil, Prod.mk.injEq]
      exact ⟨trivial, by omega⟩
  · have hmin2 : min pre.length (pre ++ (frag ++ ['\n'])).length = pre.length := by
      simp only [List.length_append]; omega
    have hassoc : pre ++ frag ++ ['\n'] = pre ++ (frag ++ ['\n']) :=
      List.append_assoc pre frag ['\n']
    rw [hassoc]
    simp only [Codex.read_since, hmin2, List.drop_left,
      readLoopAcc_single frag hfrag []]
    simp only [List.reverse_nil, List.nil_append, List.length_nil, hmsg,
      Prod.mk.injEq]
    exact ⟨trivial, by omega⟩

/-- Witness for C1 at the end-to-end line of S 8: empty consumed prefix,
the `"hi"` record as the unterminated final line. -/
theorem c1_witness :
    Codex.read_since ([] ++ Codex.hiLine) 0 = (none, List.length ([] : List Char)) ∧
    Codex.read_since ([] ++ Codex.hiLine ++ ['\n']) (List.length ([] : List Char))
      = (some "hi", List.length ([] : List Char) + Codex.hiLine.length + 1) :=
  c1_partial_write_safety [] Codex.hiLine 0 "hi" (Or.inl rfl) (by decide)
    (by decide) (by decide) (by decide)

/-- Offsets stay inside the file and never regress along a growing
transcript. -/
theorem pollOffsetsAux_chain (exts : List (List Char)) :
    ∀ (c : List Char) (o : Nat), o ≤ c.length →
      List.Chain' (· ≤ ·) (o :: Codex.pollOffsetsAux c o exts) := by
  induction exts with
  | nil => intro c o ho; simp [Codex.pollOffsetsAux]
  | cons e es ih =>
    intro c o ho
    simp only [Codex.pollOffsetsAux]
    rw [List.chain'_cons]
    have hle : o ≤ (c ++ e).length := by
      simp only [List.length_append]; omega
    exact ⟨read_since_snd_ge (c ++ e) o hle,
      ih (c ++ e) ((Codex.read_since (c ++ e) o).2) (read_since_snd_le _ _)⟩

/-- C4.  Monotonic cursor: against a transcript that only grows and
never changes identity, the cursor offsets returned by successive
`_read_since` calls are non-decreasing, whatever stored offset
(including the `-1` baseline sentinel) the first call starts from. -/
theorem c4_monotonic_cursor (c : List Char) (o : Int) (exts : List (List Char)) :
    List.Chain' (· ≤ ·) (Codex.pollOffsets c o exts) := by
  simp only [Codex.pollOffsets]
  exact pollOffsetsAux_chain exts c ((Codex.pollA c o).2)
    (read_since_snd_le c (Codex.normOffset c.length o))

/-- C6 counterexample: a present but unreadable transcript makes
`capture_state` record the offset `-1`, not `0`. -/
theorem c6_counterexample :
    Codex.capture_offset (Codex.CapFile.unreadable ['x']) = -1 ∧
    (-1 : Int) ≠ 0 := ⟨rfl, by decide⟩

/-- C6 amended.  `capture_state` records the file's byte size when it is
readable and the sentinel `-1` when it is unreadable or absent; a
subsequent poll replaces a negative offset by the file's size at poll
time (end of file) and consumes nothing, so all history written before
that poll is excluded. -/
theorem c6_amended_capture (c : List Char) (o : Int) (h : o < 0) :
    Codex.capture_offset (Codex.CapFile.readable c) = Int.ofNat c.length ∧
    Codex.capture_offset (Codex.CapFile.unreadable c) = -1 ∧
    Codex.capture_offset Codex.CapFile.absent = -1 ∧
    Codex.pollA c o = (none, c.length) ∧
    Codex.read_since c c.length = (none, c.length) := by
  have hread : Codex.read_since c c.length = (none, c.length) := by
    simp [Codex.read_since, List.drop_length, Codex.readLoopAcc]
  refine ⟨rfl, rfl, rfl, ?_, hread⟩
  rw [Codex.pollA, Codex.normOffset, if_pos h]
  exact hread

/-- Witness for C6 amended at a two-byte file and the sentinel
offset. -/
theorem c6_amended_witness :
    Codex.capture_offset (Codex.CapFile.readable ['a', 'b']) = Int.ofNat 2 ∧
    Codex.capture_offset (Codex.CapFile.unreadable ['a', 'b']) = -1 ∧
    Codex.capture_offset Codex.CapFile.absent = -1 ∧
    Codex.pollA ['a', 'b'] (-1) = (none, 2) ∧
    Codex.read_since ['a', 'b'] 2 = (none, 2) := by
  have h := c6_amended_capture ['a', 'b'] (-1) (by decide)
  simpa using h

/-- Splitting a single terminated line. -/
theorem splitlinesGo_single (l : List Char) (h : '\n' ∉ l) :
    ∀ cur, Codex.splitlinesGo cur (l ++ ['\n']) = [cur.reverse ++ l] := by
  induction l with
  | nil =>
    intro cur
    simp [Codex.splitlinesGo]
  | cons c cs ih =>
    intro cur
    have hc : c ≠ '\n' := fun e => h (e ▸ List.mem_cons_self c cs)
    rw [List.cons_append, Codex.splitlinesGo, if_neg hc]
    rw [ih (fun hm => h (List.mem_cons_of_mem c hm)) (c :: cur)]
    simp

/-- The snapshot scan never returns the empty string: the source guards
the return with the truthiness check `if message:`. -/
theorem latestScan_ne_empty (ls : List (List Char)) :
    Codex.latestScan ls ≠ some "" := by
  induction ls with
  | nil => simp [Codex.latestScan]
  | cons l rest ih =>
    rw [Codex.latestScan]
    split
    · exact ih
    · split
      · exact ih
      · split
        · split
          · next h => intro hc; exact h (Option.some.inj hc)
          · exact ih
        · exact ih

/-- C10.  Empty-reply asymmetry: a complete line whose record extracts
the empty string is returned as the reply by the cursor-based read, and
its cursor is consumed past the line; the snapshot `latest_message`
skips that record, and more generally never returns an empty reply. -/
theorem c10_empty_reply_asymmetry (L : List Char) (hnl : '\n' ∉ L)
    (hmsg : Codex.lineMessage (L ++ ['\n']) = some "") :
    Codex.read_since (L ++ ['\n']) 0 = (some "", L.length + 1) ∧
    Codex.latest_message (L ++ ['\n']) = none ∧
    (∀ c : List Char, Codex.latest_message c ≠ some "") := by
  refine ⟨?_, ?_, fun c => latestScan_ne_empty _⟩
  · simp only [Codex.read_since, Nat.min_def, List.drop_zero]
    have hz : (0:Nat) ≤ (L ++ ['\n']).length := Nat.zero_le _
    rw [if_pos hz, List.drop_zero, readLoopAcc_single L hnl []]
    simp only [List.reverse_nil, List.nil_append, List.length_nil, hmsg,
      Prod.mk.injEq]
    exact ⟨trivial, by omega⟩
  · have hse : stripWs (L ++ ['\n']) = stripWs L := stripWs_append_newline L
    rw [Codex.lineMessage, hse] at hmsg
    by_cases hemp : (stripWs L).isEmpty = true
    · rw [if_pos hemp] at hmsg; exact absurd hmsg (by simp)
    · rw [if_neg hemp] at hmsg
      cases hpj : parseJson (stripWs L) with
      | none => rw [hpj] at hmsg; exact absurd hmsg (by simp)
      | some entry =>
        rw [hpj] at hmsg
        have hx : Codex.extract_message entry = some "" := hmsg
        rw [Codex.latest_message, Codex.splitlines,
          splitlinesGo_single L hnl []]
        simp only [List.reverse_nil, List.nil_append, List.reverse_cons]
        rw [Codex.latestScan, if_neg hemp, hpj]
        simp [hx, Codex.latestScan]

/-- Witness for C10 at the record whose only output fragment is the
empty string. -/
theorem c10_witness :
    Codex.read_since (Codex.emptyTextLine ++ ['\n']) 0
      = (some "", Codex.emptyTextLine.length + 1) ∧
    Codex.latest_message (Codex.emptyTextLine ++ ['\n']) = none :=
  ⟨(c10_empty_reply_asymmetry Codex.emptyTextLine (by decide) (by decide)).1,
   (c10_empty_reply_asymmetry Codex.emptyTextLine (by decide) (by decide)).2.1⟩

/-- C2.  No lost delivery under rotation: when a blocking-poll iteration
reads nothing new from the current file `A` and the rescan finds a
different file `B`, the loop switches to `B` with the offset reset to 0,
and the next iteration returns the qualifying reply already present in
`B`. -/
theorem c2_no_lost_delivery (files : List Codex.FileEntry)
    (st : Codex.RotState) (A B : Codex.FileEntry) (m : String)
    (hA : Codex.ensureLog files st = some (A, st))
    (hnone : (Codex.read_since A.content
      (Codex.normOffset A.content.length st.offset)).1 = none)
    (hscan : Codex.scan_latest files = some B)
    (hne : B.path ≠ A.path)
    (hfind : Codex.findFile files B.path = some B)
    (hmsg : (Codex.read_since B.content 0).1 = some m) :
    Codex.pollStepB files true st
      = Codex.StepOut.wait ⟨some B.path, some B.path, 0⟩ ∧
    Codex.pollStepB files false ⟨some B.path, some B.path, 0⟩
      = Codex.StepOut.reply m
          ⟨some B.path, some B.path, Int.ofNat (Codex.read_since B.content 0).2⟩ := by
  constructor
  · simp only [Codex.pollStepB, hA, hnone, hscan]
    simp [hne]
  · have hensure : Codex.ensureLog files ⟨some B.path, some B.path, 0⟩
        = some (B, ⟨some B.path, some B.path, 0⟩) := by
      simp only [Codex.ensureLog, Option.some_bind, hfind]
    have hno : Codex.normOffset B.content.length 0 = 0 := by
      simp [Codex.normOffset]
    simp only [Codex.pollStepB, hensure, hno, hmsg]

/-- Witness for C2: an already-consumed file and a newer file that
already contains the `"hi"` reply. -/
theorem c2_witness :
    Codex.pollStepB [⟨0, 0, []⟩, ⟨1, 5, Codex.hiLine ++ ['\n']⟩] true
        ⟨some 0, some 0, 0⟩
      = Codex.StepOut.wait ⟨some 1, some 1, 0⟩ ∧
    Codex.pollStepB [⟨0, 0, []⟩, ⟨1, 5, Codex.hiLine ++ ['\n']⟩] false
        ⟨some 1, some 1, 0⟩
      = Codex.StepOut.reply "hi"
          ⟨some 1, some 1,
           Int.ofNat (Codex.read_since (Codex.hiLine ++ ['\n']) 0).2⟩ :=
  c2_no_lost_delivery [⟨0, 0, []⟩, ⟨1, 5, Codex.hiLine ++ ['\n']⟩]
    ⟨some 0, some 0, 0⟩ ⟨0, 0, []⟩ ⟨1, 5, Codex.hiLine ++ ['\n']⟩ "hi"
    (by decide) (by decide) (by decide) (by decide) (by decide) (by decide)

/-- With enough fuel, the timed wait loop against a reply-free
transcript returns after the first sleep that reaches the deadline:
starting at `j` elapsed sleeps it returns at some `k > j` sleeps with
`k * poll` still below `deadline + poll`. -/
theorem waitGoA_returns (content : List Char) (poll deadline : ℚ)
    (hp : 0 < poll)
    (hnever : ∀ o : Nat, (Codex.read_since content o).1 = none) :
    ∀ (fuel j o : Nat), (j : ℚ) * poll < deadline →
      deadline ≤ ((j + fuel : Nat) : ℚ) * poll →
      ∃ (k off : Nat),
        Codex.waitGoA content o poll deadline ((j : ℚ) * poll) fuel
          = some (none, off, (k : ℚ) * poll) ∧
        j < k ∧ (k : ℚ) * poll < deadline + poll := by
  intro fuel
  induction fuel with
  | zero =>
    intro j o hlt hge
    exfalso
    simp only [Nat.add_zero] at hge
    linarith
  | succ fuel ih =>
    intro j o hlt hge
    rw [Codex.waitGoA, if_neg (not_le.mpr hlt)]
    simp only [hnever o]
    by_cases hd : deadline ≤ (j : ℚ) * poll + poll
    · refine ⟨j + 1, (Codex.read_since content o).2, ?_, Nat.lt_succ_self j, ?_⟩
      · rw [if_pos hd]
        push_cast
        ring_nf
      · push_cast
        linarith
    · rw [if_neg hd]
      have hlt' : ((j + 1 : Nat) : ℚ) * poll < deadline := by
        push_cast
        linarith [not_le.mp hd]
      have hge' : deadline ≤ (((j + 1) + fuel : Nat) : ℚ) * poll := by
        have : (j + 1) + fuel = j + (fuel + 1) := by omega
        rw [this]
        exact hge
      obtain ⟨k, off, heq, hk, hkb⟩ := ih (j + 1) (Codex.read_since content o).2 hlt' hge'
      refine ⟨k, off, ?_, by omega, hkb⟩
      have harg : (j : ℚ) * poll + poll = ((j + 1 : Nat) : ℚ) * poll := by
        push_cast
        ring
      rw [harg]
      exact heq

/-- C5.  Timeout honored: a blocking poll with a positive timeout
against a transcript that never yields a qualifying record re-checks
the deadline each iteration, sleeps exactly one poll interval at a time
(the elapsed time is a whole number of intervals, at least one), and
returns no reply in at most `timeout + poll` elapsed time. -/
theorem c5_timeout_honored (content : List Char) (offset : Nat)
    (poll timeout : ℚ) (hp : 0 < poll) (ht : 0 < timeout)
    (hnever : ∀ o : Nat, (Codex.read_since content o).1 = none) :
    ∃ (fuel off k : Nat),
      Codex.waitGoA content offset poll timeout 0 fuel
        = some (none, off, (k : ℚ) * poll) ∧
      1 ≤ k ∧ (k : ℚ) * poll ≤ timeout + poll := by
  obtain ⟨n, hn⟩ := exists_nat_ge (timeout / poll)
  have hto : timeout ≤ (n : ℚ) * poll := by
    rw [div_le_iff₀ hp] at hn
    linarith
  have h0 : ((0 : Nat) : ℚ) * poll < timeout := by push_cast; linarith
  have hge : timeout ≤ (((0 : Nat) + n : Nat) : ℚ) * poll := by push_cast; linarith
  obtain ⟨k, off, heq, hk, hkb⟩ :=
    waitGoA_returns content poll timeout hp hnever n 0 offset h0 hge
  refine ⟨n, off, k, ?_, hk, le_of_lt hkb⟩
  have hz : ((0 : Nat) : ℚ) * poll = 0 := by push_cast; ring
  rw [hz] at heq
  exact heq

/-- Witness for C5: the empty transcript, a 50 ms poll interval and a
200 ms timeout. -/
theorem c5_witness :
    ∃ (fuel off k : Nat),
      Codex.waitGoA [] 0 (1/20) (1/5) 0 fuel
        = some (none, off, (k : ℚ) * (1/20)) ∧
      1 ≤ k ∧ (k : ℚ) * (1/20) ≤ 1/5 + 1/20 :=
  c5_timeout_honored [] 0 (1/20) (1/5) (by norm_num) (by norm_num)
    (fun o => by simp [Codex.read_since, Codex.readLoopAcc])

/-- A state fixed by one poll iteration yields nothing forever. -/
theorem pollStream_const (msgs : List Gemini.GMsg) (mt : Int) (sz : Nat) :
    ∀ (n : Nat) (st : Gemini.GState),
      Gemini.read_since_nb st msgs mt sz = (none, st) →
      Gemini.pollStream st msgs mt sz n = List.replicate n none := by
  intro n
  induction n with
  | zero => intro st _; rfl
  | succ n ih =>
    intro st hfix
    rw [Gemini.pollStream]
    simp only [hfix]
    rw [ih st hfix]
    rfl

/-- C3.  Strategy B in-place edit detection: after capturing the state
of `messages=[{id:"1",type:"gemini",content:""}]`, any number of polls
against the rewritten document `messages=[{id:"1",type:"gemini",
content:"hello"}]` (same count) returns `"hello"` exactly once. -/
theorem c3_inplace_edit_detection (n : Nat) :
    ((Gemini.pollStream (Gemini.capture_state Gemini.doc0 1 10)
        Gemini.doc1 2 15 (n + 1)).count (some "hello")) = 1 := by
  have h1 : Gemini.read_since_nb (Gemini.capture_state Gemini.doc0 1 10)
      Gemini.doc1 2 15
      = (some "hello", ⟨1, 2, 15, some "1", some "hello"⟩) := by decide
  have h2 : Gemini.read_since_nb ⟨1, 2, 15, some "1", some "hello"⟩
      Gemini.doc1 2 15
      = (none, ⟨1, 2, 15, some "1", some "hello"⟩) := by decide
  rw [Gemini.pollStream]
  simp only [h1]
  rw [pollStream_const Gemini.doc1 2 15 n _ h2]
  simp [List.count_cons, List.count_replicate]

/-- The total reader-model extraction yields a reply exactly on the
spec's record shape. -/
theorem extract_isSome_iff_qualifies (entry : Json) :
    (Codex.extract_message entry).isSome = true ↔ Codex.QualifiesSpec entry := by
  rw [Codex.extract_message, Codex.QualifiesSpec]
  cases h1 : isStrVal (jGet entry "type") "response_item" with
  | false => simp [h1]
  | true =>
    cases h2 : isStrVal (jGet (Codex.payloadOf entry) "type") "message" with
    | false => simp [h2]
    | true =>
      simp only [h1, h2, Bool.true_eq_false, if_false, true_and, iff_true]
      by_cases h3 : (Codex.contentFragments (Codex.payloadOf entry)).filter
          Codex.isOutputText = []
      · have hall : ∀ item ∈ Codex.contentFragments (Codex.payloadOf entry),
            Codex.isOutputText item = false := by
          intro item hmem
          have := List.filter_eq_nil_iff.mp h3 item hmem
          simpa using this
        simp only [h3, List.map_nil, List.isEmpty_nil]
        rw [if_neg (by simp)]
        cases hm : jGet (Codex.payloadOf entry) "message" with
        | none =>
          constructor
          · intro h; simp at h
          · rintro (⟨i, hi, hq⟩ | ⟨-, s2, hs2, -⟩)
            · rw [hall i hi] at hq; exact Bool.noConfusion hq
            · exact Option.noConfusion hs2
        | some v =>
          cases v with
          | str s =>
            show (if pyStrip s ≠ "" then some (pyStrip s) else none).isSome
              = true ↔ _
            by_cases hps : pyStrip s ≠ ""
            · rw [if_pos hps]
              simp only [Option.isSome_some, true_iff]
              exact Or.inr ⟨hall, s, rfl, hps⟩
            · rw [if_neg hps]
              constructor
              · intro h; simp at h
              · rintro (⟨i, hi, hq⟩ | ⟨-, s2, hs2, hps2⟩)
                · rw [hall i hi] at hq; exact Bool.noConfusion hq
                · injection hs2 with hv
                  injection hv with hsv
                  subst hsv
                  exact absurd hps2 hps
          | null =>
            show (none : Option String).isSome = true ↔ _
            constructor
            · intro h; simp at h
            · rintro (⟨i, hi, hq⟩ | ⟨-, s2, hs2, -⟩)
              · rw [hall i hi] at hq; exact Bool.noConfusion hq
              · injection hs2 with hv
                exact Json.noConfusion hv
          | bool b =>
            show (none : Option String).isSome = true ↔ _
            constructor
            · intro h; simp at h
            · rintro (⟨i, hi, hq⟩ | ⟨-, s2, hs2, -⟩)
              · rw [hall i hi] at hq; exact Bool.noConfusion hq
              · injection hs2 with hv
                exact Json.noConfusion hv
          | num k =>
            show (none : Option String).isSome = true ↔ _
            constructor
            · intro h; simp at h
            · rintro (⟨i, hi, hq⟩ | ⟨-, s2, hs2, -⟩)
              · rw [hall i hi] at hq; exact Bool.noConfusion hq
              · injection hs2 with hv
                exact Json.noConfusion hv
          | arr xs =>
            show (none : Option String).isSome = true ↔ _
            constructor
            · intro h; simp at h
            · rintro (⟨i, hi, hq⟩ | ⟨-, s2, hs2, -⟩)
              · rw [hall i hi] at hq; exact Bool.noConfusion hq
              · injection hs2 with hv
                exact Json.noConfusion hv
          | obj kvs =>
            show (none : Option String).isSome = true ↔ _
            constructor
            · intro h; simp at h
            · rintro (⟨i, hi, hq⟩ | ⟨-, s2, hs2, -⟩)
              · rw [hall i hi] at hq; exact Bool.noConfusion hq
              · injection hs2 with hv
                exact Json.noConfusion hv
      · obtain ⟨a, ha⟩ := List.exists_mem_of_ne_nil _ h3
        obtain ⟨hmem, hout⟩ := List.mem_filter.mp ha
        have hml : ((Codex.contentFragments (Codex.payloadOf entry)).filter
            Codex.isOutputText).map Codex.fragText ≠ [] := by
          simp [List.map_eq_nil_iff, h3]
        have hie : (((Codex.contentFragments (Codex.payloadOf entry)).filter
            Codex.isOutputText).map Codex.fragText).isEmpty = false := by
          cases hx : ((Codex.contentFragments (Codex.payloadOf entry)).filter
              Codex.isOutputText).map Codex.fragText with
          | nil => exact absurd hx hml
          | cons b l => rfl
        rw [hie, if_pos rfl]
        simp only [Option.isSome_some, true_iff]
        exact Or.inl ⟨a, hmem, hout⟩

/-- C8 counterexample: with the `tmux` binary absent, `TmuxBackend.is_alive`
has no exception handler and propagates `FileNotFoundError` instead of
returning a boolean. -/
theorem c8_counterexample :
    Terminal.tmux_is_alive "sess" Terminal.SpawnResult.progMissing
      = Except.error Terminal.PyErr.fileNotFound ∧
    Terminal.tmux_is_alive "sess" Terminal.SpawnResult.progMissing
      ≠ Except.ok false ∧
    Terminal.tmux_is_alive "sess" Terminal.SpawnResult.progMissing
      ≠ Except.ok true := by
  refine ⟨rfl, ?_, ?_⟩ <;> simp [Terminal.tmux_is_alive]

/-- C8 amended.  The wezterm and iterm2 `is_alive` variants never raise
and return `false` whenever the multiplexer program is absent; the tmux
variant returns the boolean `returncode == 0` when the program runs but
raises `FileNotFoundError` when it is absent. -/
theorem c8_amended_is_alive (pid : String) (code : Int) (out : List Char) :
    Terminal.wezterm_is_alive pid Terminal.SpawnResult.progMissing = false ∧
    Terminal.iterm2_is_alive pid Terminal.SpawnResult.progMissing = false ∧
    Terminal.tmux_is_alive pid Terminal.SpawnResult.progMissing
      = Except.error Terminal.PyErr.fileNotFound ∧
    Terminal.tmux_is_alive pid (Terminal.SpawnResult.exited code out)
      = Except.ok (decide (code = 0)) :=
  ⟨rfl, rfl, rfl, rfl⟩

/-- C9 counterexample: WezTerm `send_text` on the multi-line text
`"a\nb"` delivers `"ab"` through the character-send path: the embedded
newline is stripped, so the line structure is not preserved. -/
theorem c9_counterexample :
    Terminal.wezterm_send_text ('a' :: '\n' :: 'b' :: [])
      = some (Terminal.Delivery.typed ['a', 'b'], true) ∧
    '\n' ∈ ('a' :: '\n' :: 'b' :: []) ∧
    '\n' ∉ (['a', 'b'] : List Char) := by
  refine ⟨by decide, by decide, by decide⟩

/-- Removal then stripping leaves no occurrence of the removed
character. -/
theorem not_mem_strip_removeChar (x : Char) (l : List Char) :
    x ∉ stripWs (Terminal.removeChar x l) := by
  intro h
  have h1 := mem_stripWs h
  rw [mem_removeChar] at h1
  exact h1.2 rfl

/-- C9 amended.  Every backend's `send_text` strips carriage returns
and, when the sanitized text is nonempty, follows delivery with an
Enter key-press.  Multi-line text goes through the tmux bulk-paste path
with its line structure preserved; iTerm2 sends the sanitized text
whole, keeping its newlines; WezTerm additionally strips newlines, so
its delivery is always a single flattened line on the character-send
path. -/
theorem c9_amended_send_text (text : List Char) :
    Terminal.sendCRFreeEnter (Terminal.tmux_send_text text) = true ∧
    Terminal.sendCRFreeEnter (Terminal.wezterm_send_text text) = true ∧
    Terminal.sendCRFreeEnter (Terminal.iterm2_send_text text) = true ∧
    Terminal.tmuxMultilinePasted text = true ∧
    Terminal.tmuxPastePreserves text = true ∧
    Terminal.wezFlat text = true ∧
    Terminal.iterm2KeepsNewlines text = true := by
  have hcr : '\r' ∉ stripWs (Terminal.removeChar '\r' text) :=
    not_mem_strip_removeChar '\r' text
  have hwnl : '\n' ∉ stripWs (Terminal.removeChar '\n'
      (Terminal.removeChar '\r' text)) :=
    not_mem_strip_removeChar '\n' _
  have hwcr : '\r' ∉ stripWs (Terminal.removeChar '\n'
      (Terminal.removeChar '\r' text)) := by
    intro h
    have h1 := mem_stripWs h
    rw [mem_removeChar] at h1
    have h2 := h1.1
    rw [mem_removeChar] at h2
    exact h2.2 rfl
  refine ⟨?_, ?_, ?_, ?_, ?_, ?_, ?_⟩
  · rw [Terminal.tmux_send_text]
    split_ifs with h1 h2
    · rfl
    · simp [Terminal.sendCRFreeEnter, Terminal.payloadD, hcr]
    · simp [Terminal.sendCRFreeEnter, Terminal.payloadD, hcr]
  · rw [Terminal.wezterm_send_text]
    split_ifs with h1
    · rfl
    · simp [Terminal.sendCRFreeEnter, Terminal.payloadD, hwcr]
  · rw [Terminal.iterm2_send_text]
    split_ifs with h1
    · rfl
    · simp [Terminal.sendCRFreeEnter, Terminal.payloadD, hcr]
  · rw [Terminal.tmuxMultilinePasted, Terminal.tmux_send_text]
    split_ifs with h1 h2
    · rfl
    · have h3 := h2.1
      simp only [Bool.not_eq_true] at h3
      show (!(stripWs (Terminal.removeChar '\r' text)).contains '\n') = true
      rw [h3]
      rfl
    · rfl
  · rw [Terminal.tmuxPastePreserves, Terminal.tmux_send_text]
    split_ifs with h1 h2
    · rfl
    · rfl
    · simp
  · rw [Terminal.wezFlat, Terminal.wezterm_send_text]
    split_ifs with h1
    · rfl
    · simp [Terminal.payloadD, hwnl]
  · rw [Terminal.iterm2KeepsNewlines, Terminal.iterm2_send_text]
    split_ifs with h1
    · rfl
    · simp [Terminal.payloadD]

/-- Resolving `payload.get("content") or []` without raising yields
exactly the fragment list of the total model. -/
theorem contentItems_ok (payload : Json) (l : List Json)
    (h : Codex.contentItems ((jGet payload "content").getD Json.null)
      = Except.ok l) :
    Codex.contentFragments payload = l := by
  cases hcv : jGet payload "content" with
  | none =>
    rw [hcv] at h
    simp only [Option.getD_none] at h
    simp [Codex.contentItems, Codex.truthy] at h
    simp [Codex.contentFragments, hcv, h]
  | some v =>
    rw [hcv] at h
    simp only [Option.getD_some] at h
    cases v with
    | null =>
      simp [Codex.contentItems, Codex.truthy] at h
      simp [Codex.contentFragments, hcv, h]
    | bool b =>
      cases b with
      | false =>
        simp [Codex.contentItems, Codex.truthy] at h
        simp [Codex.contentFragments, hcv, h]
      | true => simp [Codex.contentItems, Codex.truthy] at h
    | num n =>
      by_cases hn : n = 0
      · subst hn
        simp [Codex.contentItems, Codex.truthy] at h
        simp [Codex.contentFragments, hcv, h]
      · simp [Codex.contentItems, Codex.truthy, hn] at h
    | str s =>
      by_cases hs : s = ""
      · subst hs
        simp [Codex.contentItems, Codex.truthy] at h
        simp [Codex.contentFragments, hcv, h]
      · simp [Codex.contentItems, Codex.truthy, hs] at h
    | arr xs =>
      cases hxe : xs.isEmpty with
      | true =>
        rw [List.isEmpty_iff] at hxe
        subst hxe
        simp [Codex.contentItems, Codex.truthy] at h
        simp [Codex.contentFragments, hcv, h]
      | false =>
        simp [Codex.contentItems, Codex.truthy, hxe] at h
        simp [Codex.contentFragments, hcv, h]
    | obj kvs =>
      cases hke : kvs.isEmpty with
      | true =>
        simp [Codex.contentItems, Codex.truthy, hke] at h
        simp [Codex.contentFragments, hcv, h]
      | false => simp [Codex.contentItems, Codex.truthy, hke] at h


/-- A comprehension pass that does not raise visits only dict items and
collects the raw `text` values of the `output_text` ones. -/
theorem collectTexts_ok (l : List Json) :
    ∀ ts, Codex.collectTexts l = Except.ok ts →
      ts = (l.filter Codex.isOutputText).map
        (fun item => (jGet item "text").getD (Json.str "")) := by
  induction l with
  | nil =>
    intro ts h
    simp [Codex.collectTexts] at h
    simp [h]
  | cons item rest ih =>
    intro ts h
    cases item with
    | obj kvs =>
      rw [Codex.collectTexts] at h
      cases hrec : Codex.collectTexts rest with
      | error e => rw [hrec] at h; exact Except.noConfusion h
      | ok ts2 =>
        rw [hrec] at h
        simp only [Except.ok.injEq] at h
        subst h
        cases hout : Codex.isOutputText (Json.obj kvs) with
        | true =>
          rw [List.filter_cons_of_pos (by simp [hout]), List.map_cons,
            if_pos rfl, ih ts2 hrec]
        | false =>
          rw [List.filter_cons_of_neg (by simp [hout]), if_neg (by simp)]
          exact ih ts2 hrec
    | null =>
      rw [Codex.collectTexts] at h
      exact Except.noConfusion h
      intro members hh
      exact Json.noConfusion hh
    | bool b =>
      rw [Codex.collectTexts] at h
      exact Except.noConfusion h
      intro members hh
      exact Json.noConfusion hh
    | num n =>
      rw [Codex.collectTexts] at h
      exact Except.noConfusion h
      intro members hh
      exact Json.noConfusion hh
    | str s =>
      rw [Codex.collectTexts] at h
      exact Except.noConfusion h
      intro members hh
      exact Json.noConfusion hh
    | arr xs =>
      rw [Codex.collectTexts] at h
      exact Except.noConfusion h
      intro members hh
      exact Json.noConfusion hh


/-- A join that does not raise keeps exactly the non-empty strings that
the total model's `fragText`-then-filter pipeline keeps. -/
theorem joinTruthyTexts_ok (ts : List Json) :
    ∀ ks, Codex.joinTruthyTexts ts = Except.ok ks →
      ks = (ts.map (fun t => match t with
                             | Json.str s => s
                             | _ => "")).filter (fun s => s ≠ "") := by
  induction ts with
  | nil =>
    intro ks h
    simp [Codex.joinTruthyTexts] at h
    simp [h]
  | cons t rest ih =>
    intro ks h
    cases t with
    | str s =>
      rw [Codex.joinTruthyTexts] at h
      by_cases hs : s = ""
      · subst hs
        rw [if_neg (by simp [Codex.truthy])] at h
        rw [ih ks h, List.map_cons, List.filter_cons_of_neg (by simp)]
      · rw [if_pos (by simp [Codex.truthy, hs])] at h
        cases hrec : Codex.joinTruthyTexts rest with
        | error e => rw [hrec] at h; exact Except.noConfusion h
        | ok ss =>
          rw [hrec] at h
          simp only [Except.ok.injEq] at h
          subst h
          rw [List.map_cons, List.filter_cons_of_pos (by simp [hs]),
            ih ss hrec]
    | null =>
      rw [Codex.joinTruthyTexts] at h
      rw [if_neg (by simp [Codex.truthy])] at h
      rw [ih ks h, List.map_cons, List.filter_cons_of_neg (by simp)]
      intro s hh
      exact Json.noConfusion hh
    | bool b =>
      rw [Codex.joinTruthyTexts] at h
      swap
      intro s hh
      exact Json.noConfusion hh
      cases b with
      | false =>
        rw [if_neg (by simp [Codex.truthy])] at h
        rw [ih ks h, List.map_cons, List.filter_cons_of_neg (by simp)]
      | true =>
        rw [if_pos (by simp [Codex.truthy])] at h
        exact Except.noConfusion h
    | num n =>
      rw [Codex.joinTruthyTexts] at h
      swap
      intro s hh
      exact Json.noConfusion hh
      by_cases hn : n = 0
      · subst hn
        rw [if_neg (by simp [Codex.truthy])] at h
        rw [ih ks h, List.map_cons, List.filter_cons_of_neg (by simp)]
      · rw [if_pos (by simp [Codex.truthy, hn])] at h
        exact Except.noConfusion h
    | arr xs =>
      rw [Codex.joinTruthyTexts] at h
      swap
      intro s hh
      exact Json.noConfusion hh
      cases hxe : xs.isEmpty with
      | true =>
        rw [if_neg (by simp [Codex.truthy, hxe])] at h
        rw [ih ks h, List.map_cons, List.filter_cons_of_neg (by simp)]
      | false =>
        rw [if_pos (by simp [Codex.truthy, hxe])] at h
        exact Except.noConfusion h
    | obj kvs =>
      rw [Codex.joinTruthyTexts] at h
      swap
      intro s hh
      exact Json.noConfusion hh
      cases hke : kvs.isEmpty with
      | true =>
        rw [if_neg (by simp [Codex.truthy, hke])] at h
        rw [ih ks h, List.map_cons, List.filter_cons_of_neg (by simp)]
      | false =>
        rw [if_pos (by simp [Codex.truthy, hke])] at h
        exact Except.noConfusion h

/-- Under the join's string view, the raw collected text values are the
total model's `fragText` images. -/
theorem map_strOf_rawText (l : List Json) :
    (l.map (fun item => (jGet item "text").getD (Json.str ""))).map
        (fun t => match t with
                  | Json.str s => s
                  | _ => "")
      = l.map Codex.fragText := by
  induction l with
  | nil => rfl
  | cons item rest ih =>
    simp only [List.map_cons, ih]
    congr 1
    rw [Codex.fragText]
    cases h : jGet item "text" with
    | none => rfl
    | some v => cases v <;> rfl

/-- The total reader-model extraction agrees with the
exception-faithful one on every input the source processes without
raising. -/
theorem extract_message_exn_agrees (entry : Json) (r : Option String)
    (hok : Codex.extract_message_exn entry = Except.ok r) :
    Codex.extract_message entry = r := by
  cases entry with
  | null =>
    have h2 : (Except.error Codex.PyExn.attributeError :
        Except Codex.PyExn (Option String)) = Except.ok r := hok
    exact Except.noConfusion h2
  | bool b =>
    have h2 : (Except.error Codex.PyExn.attributeError :
        Except Codex.PyExn (Option String)) = Except.ok r := hok
    exact Except.noConfusion h2
  | num n =>
    have h2 : (Except.error Codex.PyExn.attributeError :
        Except Codex.PyExn (Option String)) = Except.ok r := hok
    exact Except.noConfusion h2
  | str s =>
    have h2 : (Except.error Codex.PyExn.attributeError :
        Except Codex.PyExn (Option String)) = Except.ok r := hok
    exact Except.noConfusion h2
  | arr xs =>
    have h2 : (Except.error Codex.PyExn.attributeError :
        Except Codex.PyExn (Option String)) = Except.ok r := hok
    exact Except.noConfusion h2
  | obj kvs =>
    rw [Codex.extract_message_exn] at hok
    simp only [Codex.pyGet] at hok
    rw [Codex.extract_message]
    simp only [Codex.payloadOf]
    by_cases h1 : isStrVal (jGet (Json.obj kvs) "type") "response_item" = false
    · rw [if_pos h1] at hok ⊢
      exact Except.ok.inj hok
    · rw [if_neg h1] at hok ⊢
      cases hpc : (jGet (Json.obj kvs) "payload").getD (Json.obj []) with
      | null =>
        rw [hpc] at hok
        have h2 : (Except.error Codex.PyExn.attributeError :
            Except Codex.PyExn (Option String)) = Except.ok r := hok
        exact Except.noConfusion h2
      | bool b =>
        rw [hpc] at hok
        have h2 : (Except.error Codex.PyExn.attributeError :
            Except Codex.PyExn (Option String)) = Except.ok r := hok
        exact Except.noConfusion h2
      | num n =>
        rw [hpc] at hok
        have h2 : (Except.error Codex.PyExn.attributeError :
            Except Codex.PyExn (Option String)) = Except.ok r := hok
        exact Except.noConfusion h2
      | str s =>
        rw [hpc] at hok
        have h2 : (Except.error Codex.PyExn.attributeError :
            Except Codex.PyExn (Option String)) = Except.ok r := hok
        exact Except.noConfusion h2
      | arr xs =>
        rw [hpc] at hok
        have h2 : (Except.error Codex.PyExn.attributeError :
            Except Codex.PyExn (Option String)) = Except.ok r := hok
        exact Except.noConfusion h2
      | obj pkvs =>
        rw [hpc] at hok
        simp only at hok
        by_cases h2 : isStrVal (jGet (Json.obj pkvs) "type") "message" = false
        · rw [if_pos h2] at hok ⊢
          exact Except.ok.inj hok
        · rw [if_neg h2] at hok ⊢
          cases hci : Codex.contentItems
              ((jGet (Json.obj pkvs) "content").getD Json.null) with
          | error e => rw [hci] at hok; exact Except.noConfusion hok
          | ok content =>
            rw [hci] at hok
            simp only at hok
            have hcf := contentItems_ok (Json.obj pkvs) content hci
            cases hct : Codex.collectTexts content with
            | error e => rw [hct] at hok; exact Except.noConfusion hok
            | ok texts =>
              rw [hct] at hok
              simp only at hok
              have htx := collectTexts_ok content texts hct
              rw [hcf]
              by_cases hfe : content.filter Codex.isOutputText = []
              · have hte : texts = [] := by rw [htx, hfe]; rfl
                rw [hte] at hok
                rw [if_neg (by simp)] at hok
                rw [hfe]
                rw [if_neg (by simp)]
                cases hm : jGet (Json.obj pkvs) "message" with
                | none =>
                  rw [hm] at hok
                  exact Except.ok.inj hok
                | some v =>
                  rw [hm] at hok
                  cases v with
                  | str m =>
                    have hok2 : (if pyStrip m ≠ "" then
                          (Except.ok (some (pyStrip m)) :
                            Except Codex.PyExn (Option String))
                        else Except.ok none) = Except.ok r := hok
                    show (if pyStrip m ≠ "" then some (pyStrip m) else none)
                      = r
                    by_cases hpm : pyStrip m ≠ ""
                    · rw [if_pos hpm] at hok2 ⊢
                      exact Except.ok.inj hok2
                    · rw [if_neg hpm] at hok2 ⊢
                      exact Except.ok.inj hok2
                  | null => exact Except.ok.inj hok
                  | bool b2 => exact Except.ok.inj hok
                  | num n2 => exact Except.ok.inj hok
                  | arr xs2 => exact Except.ok.inj hok
                  | obj kvs2 => exact Except.ok.inj hok
              · have hne : texts ≠ [] := by
                  rw [htx]
                  simp [List.map_eq_nil_iff, hfe]
                have hie : texts.isEmpty = false := by
                  cases hx : texts with
                  | nil => exact absurd hx hne
                  | cons a l2 => rfl
                rw [hie, if_pos rfl] at hok
                cases hjt : Codex.joinTruthyTexts texts with
                | error e => rw [hjt] at hok; exact Except.noConfusion hok
                | ok kept =>
                  rw [hjt] at hok
                  have hkp := joinTruthyTexts_ok texts kept hjt
                  have hge : ((content.filter Codex.isOutputText).map
                      Codex.fragText).isEmpty = false := by
                    cases hx : (content.filter Codex.isOutputText).map
                        Codex.fragText with
                    | nil =>
                      rw [List.map_eq_nil_iff] at hx
                      exact absurd hx hfe
                    | cons a l2 => rfl
                  rw [hge, if_pos rfl]
                  have hr := Except.ok.inj hok
                  rw [← hr, hkp, htx, map_strOf_rawText]

/-- C7 counterexample: the record `crashEntry` decodes to a
`response_item`/`message` carrying an `output_text` fragment with text
`"hi"` — it satisfies the claimed shape — yet the source raises an
uncaught `AttributeError` on the bare string in its content list, so no
reply is returned; only the collapsed total model would yield
`some "hi"`. -/
theorem c7_counterexample :
    Codex.extract_message_exn Codex.crashEntry
      = Except.error Codex.PyExn.attributeError ∧
    Codex.QualifiesSpec Codex.crashEntry ∧
    Codex.extract_message Codex.crashEntry = some "hi" := by
  refine ⟨rfl, ?_, by decide⟩
  refine ⟨rfl, rfl, Or.inl
    ⟨Json.obj [("type", Json.str "output_text"), ("text", Json.str "hi")],
     ?_, rfl⟩⟩
  show Json.obj [("type", Json.str "output_text"), ("text", Json.str "hi")] ∈
    [Json.str "x",
     Json.obj [("type", Json.str "output_text"), ("text", Json.str "hi")]]
  exact List.mem_cons_of_mem _ (List.mem_cons_self _ _)

/-- C7 amended.  On every entry the extractor processes without raising
(`extract_message_exn` is the exception-faithful translation; a
non-object entry, payload or content item, or a truthy non-string
`text`, raises an uncaught `AttributeError`/`TypeError` and no reply is
returned), the reader-model extraction agrees with it, and a reply is
produced iff the record is a `response_item`/`message` with at least
one `output_text` fragment (the truthy string texts joined) or, with no
such fragment, a legacy string `payload.message` that is non-empty
after stripping.  End to end: capturing on an empty transcript,
appending the `"hi"` record and polling returns `"hi"`. -/
theorem c7_amended_extraction :
    (∀ (entry : Json) (r : Option String),
        Codex.extract_message_exn entry = Except.ok r →
          Codex.extract_message entry = r ∧
          (r.isSome = true ↔ Codex.QualifiesSpec entry)) ∧
    Codex.capture_offset (Codex.CapFile.readable []) = 0 ∧
    (Codex.pollA (Codex.hiLine ++ ['\n'])
        (Codex.capture_offset (Codex.CapFile.readable []))).1 = some "hi" := by
  refine ⟨?_, rfl, by decide⟩
  intro entry r hok
  have hagree := extract_message_exn_agrees entry r hok
  refine ⟨hagree, ?_⟩
  rw [← hagree]
  exact extract_isSome_iff_qualifies entry

/-- Witness for C7 amended at the decoded end-to-end record. -/
theorem c7_amended_witness :
    Codex.extract_message Codex.hiEntry = some "hi" ∧
    ((some "hi" : Option String).isSome = true ↔
      Codex.QualifiesSpec Codex.hiEntry) :=
  c7_amended_extraction.1 Codex.hiEntry (some "hi") (by rfl)
